import Mathlib

/-!
Verification development for the mamas-kb repository: a WhatsApp-chat
knowledge-extraction pipeline (spec-modelled, the Python script is not in
the checked tree) feeding a Next.js presentation layer
(`web/app/page.tsx`, embedded from source below).
-/

/-! ## JavaScript string primitives, embedded with JS semantics -/

/-- JS `String.prototype.toLowerCase` (ASCII-faithful model). -/
def jsToLower (s : String) : String := ⟨s.data.map Char.toLower⟩

/-- Whitespace recognized by JS `trim` (common subset). -/
def isJsWs (c : Char) : Bool := c == ' ' || c == '\t' || c == '\n' || c == '\r'

/-- Drop leading and trailing whitespace from a character list. -/
def trimList (l : List Char) : List Char :=
  ((l.dropWhile isJsWs).reverse.dropWhile isJsWs).reverse

/-- JS `String.prototype.trim`. -/
def jsTrim (s : String) : String := ⟨trimList s.data⟩

/-- Boolean test that `pat` begins the list `l`. -/
def isPrefixB : List Char → List Char → Bool
  | [], _ => true
  | _ :: _, [] => false
  | a :: as, b :: bs => a == b && isPrefixB as bs

/-- Boolean test that `pat` occurs contiguously inside `l`. -/
def isInfixB (pat : List Char) : List Char → Bool
  | [] => pat.isEmpty
  | b :: bs => isPrefixB pat (b :: bs) || isInfixB pat bs

/-- JS `String.prototype.includes`: `pat` occurs as a substring of `s`. -/
def containsSub (s pat : String) : Bool := isInfixB pat.data s.data

/-! ## Presentation layer, embedded from `web/app/page.tsx` -/

/-- `KnowledgeItem` interface of `page.tsx`. -/
structure KnowledgeItem where
  id : String
  category : String
  title : String
  content : String
  tags : List String
deriving DecidableEq, Repr

/-- `KnowledgeBase` interface of `page.tsx`. -/
structure KnowledgeBase where
  updated_at : String
  total : Nat
  items : List KnowledgeItem
deriving DecidableEq, Repr

/-- Visual configuration record of `CATEGORY_CONFIG` entries. -/
structure CategoryCfg where
  emoji : String
  pill : String
  header : String
deriving DecidableEq, Repr

/-- `CATEGORY_CONFIG` of `page.tsx`: the recognized categories and their
visual treatment. -/
def CATEGORY_CONFIG : List (String × CategoryCfg) :=
  [ ("Pediatricians & Specialists",
     ⟨"🩺", "bg-pink-100 text-pink-800 border-pink-200",
      "from-pink-50 to-white border-pink-100"⟩),
    ("OB/GYNs",
     ⟨"🤰", "bg-purple-100 text-purple-800 border-purple-200",
      "from-purple-50 to-white border-purple-100"⟩),
    ("Baby Classes & Activities",
     ⟨"🎶", "bg-green-100 text-green-800 border-green-200",
      "from-green-50 to-white border-green-100"⟩),
    ("Fitness & Wellness",
     ⟨"💪", "bg-orange-100 text-orange-800 border-orange-200",
      "from-orange-50 to-white border-orange-100"⟩),
    ("Stroller-Friendly Dining",
     ⟨"🍽️", "bg-sky-100 text-sky-800 border-sky-200",
      "from-sky-50 to-white border-sky-100"⟩),
    ("Childcare & Nannies",
     ⟨"🏠", "bg-yellow-100 text-yellow-800 border-yellow-200",
      "from-yellow-50 to-white border-yellow-100"⟩),
    ("Baby Products & Gear",
     ⟨"🛍️", "bg-indigo-100 text-indigo-800 border-indigo-200",
      "from-indigo-50 to-white border-indigo-100"⟩),
    ("Home Services",
     ⟨"🧹", "bg-teal-100 text-teal-800 border-teal-200",
      "from-teal-50 to-white border-teal-100"⟩),
    ("Beauty & Personal Care",
     ⟨"✨", "bg-rose-100 text-rose-800 border-rose-200",
      "from-rose-50 to-white border-rose-100"⟩),
    ("UWS Local Tips",
     ⟨"📍", "bg-amber-100 text-amber-800 border-amber-200",
      "from-amber-50 to-white border-amber-100"⟩),
    ("Parenting Tips",
     ⟨"💡", "bg-cyan-100 text-cyan-800 border-cyan-200",
      "from-cyan-50 to-white border-cyan-100"⟩) ]

/-- `DEFAULT_CONFIG` of `page.tsx`. -/
def DEFAULT_CONFIG : CategoryCfg :=
  ⟨"📌", "bg-gray-100 text-gray-700 border-gray-200",
   "from-gray-50 to-white border-gray-100"⟩

/-- `getCfg` of `page.tsx`: `CATEGORY_CONFIG[category] ?? DEFAULT_CONFIG`. -/
def getCfg (category : String) : CategoryCfg :=
  match CATEGORY_CONFIG.find? (fun p => p.1 == category) with
  | some p => p.2
  | none => DEFAULT_CONFIG

/-- `matchesCat` of the `filtered` memo in `page.tsx`. -/
def matchesCat (activeCategory : String) (item : KnowledgeItem) : Bool :=
  activeCategory == "All" || item.category == activeCategory

/-- `matchesSearch` of the `filtered` memo in `page.tsx`: `q` is the
already lowercased-and-trimmed search string. -/
def matchesSearch (q : String) (item : KnowledgeItem) : Bool :=
  q == "" ||
  containsSub (jsToLower item.title) q ||
  containsSub (jsToLower item.content) q ||
  item.tags.any (fun t => containsSub (jsToLower t) q)

/-- Predicate of the `filtered` memo in `page.tsx`. -/
def matchesFilter (activeCategory q : String) (item : KnowledgeItem) : Bool :=
  matchesCat activeCategory item && matchesSearch q item

/-- The `filtered` memo of `page.tsx`:
`q = search.toLowerCase().trim()` then `data.items.filter(...)`. -/
def filteredItems (data : KnowledgeBase) (search activeCategory : String) :
    List KnowledgeItem :=
  data.items.filter (matchesFilter activeCategory (jsTrim (jsToLower search)))

/-- The `categories` memo of `page.tsx`:
`[...new Set(data.items.map(i => i.category))].sort()`. -/
def categoriesOf (data : KnowledgeBase) : List String :=
  List.insertionSort (· ≤ ·) (data.items.map (fun i => i.category)).dedup

/-- `countFor` of `page.tsx` (with data loaded). -/
def countFor (data : KnowledgeBase) (cat : String) : Nat :=
  (data.items.filter (fun i => i.category == cat)).length

/-- `handleTagClick` of `page.tsx`: the (search, activeCategory) state it
installs. -/
def handleTagClick (tag : String) : String × String := (tag, "All")

/-! ## Extraction pipeline

The Python pipeline (`scripts/parse_chats.py`) is not part of the checked
tree; its stages are modelled from the specification, stage by stage. -/

/-- Modelled from the spec: `RawMessage` — sender label, timestamp, text
(spec §3); produced by the Message Parser, missing from the tree. -/
structure RawMessage where
  sender : String
  timestamp : String
  text : String
deriving DecidableEq, Repr

/-- Modelled from the spec: noise-keyword patterns of the Noise Filter
(spec §4.2: reactions, membership/system notifications, pure logistics);
the Python filter is missing from the tree. -/
def noisePatterns : List String :=
  ["joined using", "left the group", "changed their phone number",
   "added you", "running late", "min late", "omw"]

/-- Modelled from the spec: the Noise Filter's classification (spec §4.2:
keyword/pattern heuristics plus a minimum length threshold). -/
def isNoise (m : RawMessage) : Bool :=
  m.text.length < 12 ||
  noisePatterns.any (fun p => containsSub (jsToLower m.text) p)

/-- Modelled from the spec: the Noise Filter stage — keep signal, drop
noise (spec §4.2). -/
def filterMessages (ms : List RawMessage) : List RawMessage :=
  ms.filter (fun m => !(isNoise m))

/-- Modelled from the spec: an `AnonymizedMessage` is text content only
(spec §3). -/
abbrev AnonymizedMessage := String

/-- Modelled from the spec: the Anonymizer — sender label and timestamp
permanently removed, retaining only message text (spec §4.3). -/
def anonymize (m : RawMessage) : AnonymizedMessage := m.text

/-- Modelled from the spec: the Anonymizer applied to the filtered stream,
order-preserving (spec §4.3). -/
def anonymizeAll (ms : List RawMessage) : List AnonymizedMessage :=
  ms.map anonymize

/-- Total text size of a batch. -/
def batchSize (b : List AnonymizedMessage) : Nat :=
  (b.map String.length).sum

/-- Modelled from the spec: greedy size-driven batching loop (spec §4.4);
`cur` is the batch being accumulated. -/
def batchGo (limit : Nat) (cur : List AnonymizedMessage) :
    List AnonymizedMessage → List (List AnonymizedMessage)
  | [] => if cur = [] then [] else [cur]
  | m :: ms =>
    if limit < batchSize cur + m.length ∧ cur ≠ [] then
      cur :: batchGo limit [m] ms
    else
      batchGo limit (cur ++ [m]) ms

/-- Modelled from the spec: the Batcher — partition the anonymized
sequence into size-bounded batches (spec §4.4). -/
def batchMessages (limit : Nat) (ms : List AnonymizedMessage) :
    List (List AnonymizedMessage) :=
  batchGo limit [] ms

/-- Modelled from the spec: the fixed, closed category enumeration
(spec §6), including the catch-all. -/
def CATEGORIES : List String :=
  ["Pediatric Care", "Prenatal & OB Care", "Classes & Activities",
   "Fitness", "Dining", "Childcare", "Products & Gear", "Home Services",
   "Personal Care", "Local Tips", "General Parenting Tips", "Other"]

/-- Modelled from the spec: one structured record of the extraction
service's response (spec §6: `{category, title, content, tags}`). -/
structure Candidate where
  category : String
  title : String
  content : String
  tags : List String
deriving DecidableEq, Repr

/-- Modelled from the spec: schema validation at the Extraction Client
boundary (spec §9); in particular the category must lie in the fixed
enumeration. -/
def validCandidate (c : Candidate) : Bool :=
  CATEGORIES.contains c.category

/-- Case- and whitespace-insensitive normalization used by the
Deduplicator's text comparison (spec §4.6). -/
def normalizeText (s : String) : String :=
  ⟨(s.data.filter (fun c => !(isJsWs c))).map Char.toLower⟩

/-- Modelled from the spec: a newly generated stable id for a merged item
(spec §4.6), derived deterministically from category and title. -/
def mkId (category title : String) : String :=
  normalizeText category ++ ":" ++ normalizeText title

/-- Promote a validated candidate to a `KnowledgeItem`. -/
def mkItem (c : Candidate) : KnowledgeItem :=
  ⟨mkId c.category c.title, c.category, c.title, c.content, c.tags⟩

/-- Modelled from the spec: the Extraction Client on one batch, with the
external service abstracted as a function; `none` is an exhausted/failed
call and a response failing validation is treated as a skip (spec §4.5). -/
def extractBatch (service : List AnonymizedMessage → Option (List Candidate))
    (b : List AnonymizedMessage) : List KnowledgeItem :=
  match service b with
  | none => []
  | some cs => if cs.all validCandidate then cs.map mkItem else []

/-- Modelled from the spec: all extraction calls, candidates accumulated
independently per batch and merged after all calls complete (spec §5). -/
def extractAll (service : List AnonymizedMessage → Option (List Candidate))
    (batches : List (List AnonymizedMessage)) : List KnowledgeItem :=
  (batches.map (extractBatch service)).flatten

/-- Modelled from the spec: the Deduplicator's duplicate test — same
category and near-identical normalized titles or core content
(spec §4.6, at similarity threshold one). -/
def isDup (y x : KnowledgeItem) : Bool :=
  y.category == x.category &&
  (normalizeText y.title == normalizeText x.title ||
   normalizeText y.content == normalizeText x.content)

/-- Modelled from the spec: the Deduplicator's merge policy — keep the
longer content (earlier item on ties), union the tag sets, assign a newly
generated stable id (spec §4.6). -/
def mergeItem (y x : KnowledgeItem) : KnowledgeItem :=
  { id := mkId y.category y.title
    category := y.category
    title := y.title
    content := if x.content.length > y.content.length then x.content
               else y.content
    tags := y.tags ++ x.tags.filter (fun t => !(y.tags.contains t)) }

/-- Insert one candidate into the kept list: merge into the first kept
duplicate, else append (earlier item wins ties deterministically). -/
def insertItem (acc : List KnowledgeItem) (x : KnowledgeItem) :
    List KnowledgeItem :=
  match acc with
  | [] => [x]
  | y :: ys => if isDup y x then mergeItem y x :: ys else y :: insertItem ys x

/-- Modelled from the spec: the Deduplicator — one pass over the candidate
set in processing order (spec §4.6). -/
def dedup (xs : List KnowledgeItem) : List KnowledgeItem :=
  xs.foldl insertItem []

/-- Title-only duplicate test: same category and near-identical normalized
titles; the fields it inspects are exactly those `mergeItem` preserves. -/
def isDupT (y x : KnowledgeItem) : Bool :=
  y.category == x.category && normalizeText y.title == normalizeText x.title

/-- `insertItem` with the title-only duplicate test. -/
def insertItemT (acc : List KnowledgeItem) (x : KnowledgeItem) :
    List KnowledgeItem :=
  match acc with
  | [] => [x]
  | y :: ys => if isDupT y x then mergeItem y x :: ys
               else y :: insertItemT ys x

/-- The Deduplicator restricted to the title-only duplicate test. -/
def dedupByTitle (xs : List KnowledgeItem) : List KnowledgeItem :=
  xs.foldl insertItemT []

/-- Deduplication key: the fields `isDupT` compares and `mergeItem`
preserves. -/
def dkey (x : KnowledgeItem) : String × String :=
  (x.category, normalizeText x.title)

/-- Modelled from the spec: the `KnowledgeBase` assembly, with `total`
set to the run's item count (spec §4.6). -/
def assembleKB (updatedAt : String) (items : List KnowledgeItem) :
    KnowledgeBase :=
  { updated_at := updatedAt, total := items.length, items := items }

/-- Modelled from the spec: the full pipeline after parsing — Filter →
Anonymizer → Batcher → Extraction Client → Deduplicator → assembly
(spec §2). -/
def runPipeline (limit : Nat)
    (service : List AnonymizedMessage → Option (List Candidate))
    (updatedAt : String) (msgs : List RawMessage) : KnowledgeBase :=
  assembleKB updatedAt
    (dedup (extractAll service
      (batchMessages limit (anonymizeAll (filterMessages msgs)))))

/-- Outcome of the final publish step. -/
inductive RunResult where
  | ok (kb : KnowledgeBase)
  | fatalWriteError
deriving DecidableEq, Repr

/-- Modelled from the spec: the final write — on success the published
file is replaced wholesale, on failure the run aborts fatally and the
previously published file is untouched (spec §7); `writeOk` abstracts the
persistence outcome. -/
def finalize (published : Option KnowledgeBase) (kb : KnowledgeBase)
    (writeOk : Bool) : RunResult × Option KnowledgeBase :=
  if writeOk then (RunResult.ok kb, some kb)
  else (RunResult.fatalWriteError, published)

/-! ## Theorems -/

/-- C2: every KnowledgeBase the pipeline produces has `total` equal to the
length of `items`. -/
theorem kb_total_eq_length (limit : Nat)
    (service : List AnonymizedMessage → Option (List Candidate))
    (updatedAt : String) (msgs : List RawMessage) :
    (runPipeline limit service updatedAt msgs).total =
      (runPipeline limit service updatedAt msgs).items.length := rfl

/-- C7: a failed final write aborts the run with a fatal error and leaves
the previously published KnowledgeBase untouched; whatever the write
outcome, the published slot holds either the complete new KnowledgeBase or
the previous one — never a partial value. -/
theorem write_failure_preserves_published (published : Option KnowledgeBase)
    (kb : KnowledgeBase) :
    finalize published kb false = (RunResult.fatalWriteError, published) ∧
    ∀ writeOk : Bool, (finalize published kb writeOk).2 = some kb ∨
      (finalize published kb writeOk).2 = published := by
  refine ⟨rfl, ?_⟩
  intro writeOk
  cases writeOk
  · exact Or.inr rfl
  · exact Or.inl rfl

/-- C4: `getCfg` returns the default visual configuration on every
category absent from `CATEGORY_CONFIG`, and the display filter never
excludes an item for an unrecognized category: with active category "All",
any item matching the search is shown. -/
theorem unknown_category_shown (category : String) :
    ((∀ p ∈ CATEGORY_CONFIG, p.1 ≠ category) →
      getCfg category = DEFAULT_CONFIG) ∧
    ∀ (data : KnowledgeBase) (search : String) (item : KnowledgeItem),
      item ∈ data.items →
      matchesSearch (jsTrim (jsToLower search)) item = true →
      item ∈ filteredItems data search "All" := by
  constructor
  · intro h
    have hnone : CATEGORY_CONFIG.find? (fun p => p.1 == category) = none := by
      apply List.find?_eq_none.mpr
      intro p hp
      simpa using h p hp
    simp [getCfg, hnone]
  · intro data search item hmem hsearch
    refine List.mem_filter.mpr ⟨hmem, ?_⟩
    simp [matchesFilter, matchesCat, hsearch]

/-- C4 witness: the unrecognized category "Zzz" gets the default config
and its item is displayed under "All" with an empty search. -/
theorem unknown_category_shown_witness :
    getCfg "Zzz" = DEFAULT_CONFIG ∧
    (⟨"i", "Zzz", "t", "c", []⟩ : KnowledgeItem) ∈
      filteredItems ⟨"u", 1, [⟨"i", "Zzz", "t", "c", []⟩]⟩ "" "All" := by
  have h := unknown_category_shown "Zzz"
  exact ⟨h.1 (by decide),
    h.2 ⟨"u", 1, [⟨"i", "Zzz", "t", "c", []⟩]⟩ "" ⟨"i", "Zzz", "t", "c", []⟩
      (by simp) (by decide)⟩

/-- C8: the displayed list is an order-preserving subsequence of
`data.items`, and with an empty trimmed search and active category "All"
it is exactly `data.items`. -/
theorem filtered_sublist_and_empty_query (data : KnowledgeBase)
    (search activeCategory : String) :
    List.Sublist (filteredItems data search activeCategory) data.items ∧
    (jsTrim (jsToLower search) = "" → activeCategory = "All" →
      filteredItems data search activeCategory = data.items) := by
  constructor
  · exact List.filter_sublist _
  · intro hq hcat
    subst hcat
    unfold filteredItems
    rw [hq]
    apply List.filter_eq_self.mpr
    intro a _
    simp [matchesFilter, matchesCat, matchesSearch]

/-- C8 witness: on a concrete KnowledgeBase, the empty search under "All"
displays every item. -/
theorem filtered_sublist_and_empty_query_witness :
    filteredItems ⟨"u", 1, [⟨"i", "Dining", "t", "c", []⟩]⟩ "" "All" =
      [⟨"i", "Dining", "t", "c", []⟩] :=
  (filtered_sublist_and_empty_query
    ⟨"u", 1, [⟨"i", "Dining", "t", "c", []⟩]⟩ "" "All").2 rfl rfl

/-- Dropping a `dropWhile` prefix leaves a suffix of the original list. -/
theorem exists_dropWhile_append {α : Type} (p : α → Bool) :
    ∀ l : List α, ∃ s, s ++ l.dropWhile p = l := by
  intro l
  induction l with
  | nil => exact ⟨[], rfl⟩
  | cons a t ih =>
    cases hpa : p a with
    | true =>
      obtain ⟨s, hs⟩ := ih
      exact ⟨a :: s, by simp [List.dropWhile, hpa, hs]⟩
    | false => exact ⟨[], by simp [List.dropWhile, hpa]⟩

/-- The trimmed list occurs contiguously inside the original list. -/
theorem trimList_parts (l : List Char) :
    ∃ s t, s ++ trimList l ++ t = l := by
  obtain ⟨s₁, hs₁⟩ := exists_dropWhile_append isJsWs l
  obtain ⟨s₂, hs₂⟩ :=
    exists_dropWhile_append isJsWs (l.dropWhile isJsWs).reverse
  refine ⟨s₁, s₂.reverse, ?_⟩
  have h₂ : trimList l ++ s₂.reverse = l.dropWhile isJsWs := by
    have := congrArg List.reverse hs₂
    simpa [trimList, List.reverse_append] using this
  rw [List.append_assoc, h₂, hs₁]

/-- A list is a Boolean prefix of itself followed by anything. -/
theorem isPrefixB_self_append :
    ∀ pat t : List Char, isPrefixB pat (pat ++ t) = true := by
  intro pat
  induction pat with
  | nil => intro t; rfl
  | cons a as ih => intro t; simp [isPrefixB, ih]

/-- `isInfixB` accepts any contiguous occurrence. -/
theorem isInfixB_of_append :
    ∀ s pat t : List Char, isInfixB pat (s ++ (pat ++ t)) = true := by
  intro s
  induction s with
  | nil =>
    intro pat t
    cases pat with
    | nil =>
      cases t with
      | nil => rfl
      | cons b bs => simp [isInfixB, isPrefixB]
    | cons a as =>
      simp [isInfixB, isPrefixB, isPrefixB_self_append]
  | cons b bs ih =>
    intro pat t
    simp [isInfixB, ih pat t]

/-- JS `trim` output is always a substring of its input. -/
theorem containsSub_jsTrim (s : String) : containsSub s (jsTrim s) = true := by
  show isInfixB (trimList s.data) s.data = true
  set p := trimList s.data with hp
  obtain ⟨a, b, hab⟩ := trimList_parts s.data
  rw [← hp] at hab
  rw [← hab, List.append_assoc]
  exact isInfixB_of_append a p b

/-- C9: clicking a tag (search becomes the tag, category becomes "All")
always shows the tag's own item: the lowercased trimmed tag is a substring
of the item's own lowercased tag, so the filter matches. -/
theorem tag_click_hits (data : KnowledgeBase) (item : KnowledgeItem)
    (tag : String) (hitem : item ∈ data.items) (htag : tag ∈ item.tags) :
    containsSub (jsToLower tag) (jsTrim (jsToLower tag)) = true ∧
    item ∈ filteredItems data (handleTagClick tag).1 (handleTagClick tag).2 := by
  have hsub : containsSub (jsToLower tag) (jsTrim (jsToLower tag)) = true :=
    containsSub_jsTrim _
  refine ⟨hsub, ?_⟩
  show item ∈ filteredItems data tag "All"
  refine List.mem_filter.mpr ⟨hitem, ?_⟩
  have hany : item.tags.any
      (fun t => containsSub (jsToLower t) (jsTrim (jsToLower tag))) = true :=
    List.any_eq_true.mpr ⟨tag, htag, hsub⟩
  simp [matchesFilter, matchesCat, matchesSearch, hany]

/-- C9 witness: clicking the tag "swim" of a concrete item displays that
item. -/
theorem tag_click_hits_witness :
    containsSub (jsToLower "swim") (jsTrim (jsToLower "swim")) = true ∧
    (⟨"i", "Dining", "t", "c", ["swim"]⟩ : KnowledgeItem) ∈
      filteredItems ⟨"u", 1, [⟨"i", "Dining", "t", "c", ["swim"]⟩]⟩
        (handleTagClick "swim").1 (handleTagClick "swim").2 :=
  tag_click_hits ⟨"u", 1, [⟨"i", "Dining", "t", "c", ["swim"]⟩]⟩
    ⟨"i", "Dining", "t", "c", ["swim"]⟩ "swim" (by decide) (by decide)

/-- C1 (amended): every message reaching the Batcher / Extraction Client
is the Anonymizer's output of some input RawMessage — the sender and
timestamp fields are gone, only the text survives — and it contains a
sender-label or timestamp substring only if the raw message's own text
already contained that substring. -/
theorem anonymizer_sole_gate (msgs : List RawMessage) (a : AnonymizedMessage)
    (ha : a ∈ anonymizeAll (filterMessages msgs)) :
    ∃ m ∈ msgs, a = anonymize m ∧
      (containsSub m.text m.sender = false →
        containsSub a m.sender = false) ∧
      (containsSub m.text m.timestamp = false →
        containsSub a m.timestamp = false) := by
  unfold anonymizeAll at ha
  obtain ⟨m, hm, hma⟩ := List.mem_map.mp ha
  unfold filterMessages at hm
  refine ⟨m, List.mem_of_mem_filter hm, hma.symm, ?_, ?_⟩
  · intro h
    rw [← hma]
    exact h
  · intro h
    rw [← hma]
    exact h

/-- C1 counterexample: a filtered message whose author typed their own
name in the text reaches the batching stage still containing the sender
label "Ana" as a substring. -/
theorem anonymized_contains_sender :
    anonymizeAll (filterMessages
      [⟨"Ana", "1/2/24, 9:00", "Ana recommends Dr. Smith here"⟩]) =
      ["Ana recommends Dr. Smith here"] ∧
    containsSub "Ana recommends Dr. Smith here" "Ana" = true := by
  constructor
  · decide
  · decide

/-- C1 witness: a concrete message whose text mentions neither sender nor
timestamp reaches the extraction boundary clean. -/
theorem anonymizer_sole_gate_witness :
    ∃ m ∈ [(⟨"Bea", "1/3/24", "great pediatrician on 86th st"⟩ : RawMessage)],
      "great pediatrician on 86th st" = anonymize m ∧
      (containsSub m.text m.sender = false →
        containsSub "great pediatrician on 86th st" m.sender = false) ∧
      (containsSub m.text m.timestamp = false →
        containsSub "great pediatrician on 86th st" m.timestamp = false) :=
  anonymizer_sole_gate [⟨"Bea", "1/3/24", "great pediatrician on 86th st"⟩]
    "great pediatrician on 86th st" (by decide)

/-- `batchSize` is additive over concatenation. -/
theorem batchSize_append (a b : List AnonymizedMessage) :
    batchSize (a ++ b) = batchSize a + batchSize b := by
  simp [batchSize]

/-- Concatenating the batching loop's output restores the pending batch
followed by the remaining input. -/
theorem batchGo_flatten (limit : Nat) :
    ∀ (ms cur : List AnonymizedMessage),
      (batchGo limit cur ms).flatten = cur ++ ms := by
  intro ms
  induction ms with
  | nil =>
    intro cur
    cases cur with
    | nil => rfl
    | cons a t => simp [batchGo]
  | cons m ms ih =>
    intro cur
    rw [batchGo]
    split
    · simp [ih]
    · simp [ih]

/-- Every batch the loop emits stays within the limit, provided every
message fits the limit and the pending batch does. -/
theorem batchGo_size (limit : Nat) :
    ∀ (ms cur : List AnonymizedMessage),
      (∀ m ∈ ms, m.length ≤ limit) → batchSize cur ≤ limit →
      ∀ b ∈ batchGo limit cur ms, batchSize b ≤ limit := by
  intro ms
  induction ms with
  | nil =>
    intro cur _ hcur b hb
    rw [batchGo] at hb
    split at hb
    · simp at hb
    · rw [List.mem_singleton] at hb
      exact hb ▸ hcur
  | cons m ms ih =>
    intro cur hms hcur b hb
    have hmlim : m.length ≤ limit := hms m (List.mem_cons_self _ _)
    have hms' : ∀ x ∈ ms, x.length ≤ limit :=
      fun x hx => hms x (List.mem_cons_of_mem _ hx)
    rw [batchGo] at hb
    split at hb
    · rcases List.mem_cons.mp hb with hb | hb
      · exact hb ▸ hcur
      · refine ih [m] hms' ?_ b hb
        simpa [batchSize] using hmlim
    · rename_i hcond
      refine ih (cur ++ [m]) hms' ?_ b hb
      by_cases hnil : cur = []
      · subst hnil
        simpa [batchSize] using hmlim
      · have hle : ¬ limit < batchSize cur + m.length :=
          fun hlt => hcond ⟨hlt, hnil⟩
        rw [batchSize_append]
        have hm1 : batchSize [m] = m.length := by simp [batchSize]
        omega

/-- C5 (amended): the Batcher's output always concatenates back to the
input (complete, order-preserving, non-overlapping cover); every batch
stays within the configured limit provided each individual message fits
within it (a single oversized message necessarily occupies an oversized
batch). -/
theorem batcher_partition (limit : Nat) (ms : List AnonymizedMessage) :
    (batchMessages limit ms).flatten = ms ∧
    ((∀ m ∈ ms, m.length ≤ limit) →
      ∀ b ∈ batchMessages limit ms, batchSize b ≤ limit) := by
  constructor
  · simpa using batchGo_flatten limit ms []
  · intro h
    exact batchGo_size limit ms [] h (by simp [batchSize])

/-- C5 counterexample: with limit 3 and one message of size 4, the
Batcher must still cover the input, so it emits a batch exceeding the
limit. -/
theorem batch_exceeds_limit :
    ¬ ∀ b ∈ batchMessages 3 ["abcd"], batchSize b ≤ 3 := by decide

/-- C5 witness: a concrete run where every message fits and every batch
respects the limit. -/
theorem batcher_partition_witness :
    (batchMessages 3 ["ab", "cd", "e"]).flatten = ["ab", "cd", "e"] ∧
    ∀ b ∈ batchMessages 3 ["ab", "cd", "e"], batchSize b ≤ 3 :=
  ⟨(batcher_partition 3 ["ab", "cd", "e"]).1,
   (batcher_partition 3 ["ab", "cd", "e"]).2 (by decide)⟩

/-- Validation at the Extraction Client boundary: every emitted candidate
item carries a category from the fixed enumeration. -/
theorem mem_extractBatch_cat
    (service : List AnonymizedMessage → Option (List Candidate))
    (b : List AnonymizedMessage) (it : KnowledgeItem)
    (h : it ∈ extractBatch service b) :
    CATEGORIES.contains it.category = true := by
  unfold extractBatch at h
  cases hs : service b with
  | none => simp only [hs] at h; simp at h
  | some cs =>
    simp only [hs] at h
    split at h
    · rename_i hall
      obtain ⟨c, hc, rfl⟩ := List.mem_map.mp h
      have hv : validCandidate c = true := List.all_eq_true.mp hall c hc
      exact hv
    · simp at h

/-- `insertItem` preserves the category-closure property. -/
theorem insertItem_cat :
    ∀ (acc : List KnowledgeItem) (x : KnowledgeItem),
      (∀ y ∈ acc, CATEGORIES.contains y.category = true) →
      CATEGORIES.contains x.category = true →
      ∀ z ∈ insertItem acc x, CATEGORIES.contains z.category = true := by
  intro acc
  induction acc with
  | nil =>
    intro x _ hx z hz
    rw [insertItem] at hz
    rw [List.mem_singleton] at hz
    exact hz ▸ hx
  | cons y ys ih =>
    intro x hacc hx z hz
    rw [insertItem] at hz
    split at hz
    · rcases List.mem_cons.mp hz with hz | hz
      · subst hz
        exact hacc y (List.mem_cons_self _ _)
      · exact hacc z (List.mem_cons_of_mem _ hz)
    · rcases List.mem_cons.mp hz with hz | hz
      · subst hz
        exact hacc z (List.mem_cons_self _ _)
      · exact ih x (fun w hw => hacc w (List.mem_cons_of_mem _ hw)) hx z hz

/-- The Deduplicator's fold preserves the category-closure property. -/
theorem foldl_insertItem_cat :
    ∀ (xs acc : List KnowledgeItem),
      (∀ y ∈ acc, CATEGORIES.contains y.category = true) →
      (∀ x ∈ xs, CATEGORIES.contains x.category = true) →
      ∀ z ∈ xs.foldl insertItem acc, CATEGORIES.contains z.category = true := by
  intro xs
  induction xs with
  | nil => intro acc hacc _ z hz; exact hacc z hz
  | cons x xs ih =>
    intro acc hacc hxs z hz
    rw [List.foldl_cons] at hz
    refine ih (insertItem acc x) ?_
      (fun w hw => hxs w (List.mem_cons_of_mem _ hw)) z hz
    exact insertItem_cat acc x hacc (hxs x (List.mem_cons_self _ _))

/-- C3: every KnowledgeItem in the final emitted KnowledgeBase carries a
category from the fixed, closed enumeration. -/
theorem pipeline_categories_closed (limit : Nat)
    (service : List AnonymizedMessage → Option (List Candidate))
    (updatedAt : String) (msgs : List RawMessage) (item : KnowledgeItem)
    (h : item ∈ (runPipeline limit service updatedAt msgs).items) :
    CATEGORIES.contains item.category = true := by
  unfold runPipeline assembleKB at h
  refine foldl_insertItem_cat _ [] (by simp) ?_ item h
  intro x hx
  unfold extractAll at hx
  obtain ⟨l, hl, hxl⟩ := List.mem_flatten.mp hx
  obtain ⟨b, _, rfl⟩ := List.mem_map.mp hl
  exact mem_extractBatch_cat service b x hxl

/-- C3 witness: a concrete run emits an item and its category "Dining" is
in the enumeration. -/
theorem pipeline_categories_closed_witness :
    CATEGORIES.contains
      (⟨"dining:t", "Dining", "t", "c", []⟩ : KnowledgeItem).category = true :=
  pipeline_categories_closed 100 (fun _ => some [⟨"Dining", "t", "c", []⟩])
    "now" [⟨"Bea", "1/3/24", "great pediatrician on 86th st"⟩]
    ⟨"dining:t", "Dining", "t", "c", []⟩ (by decide)

/-- The title-only duplicate test holds exactly when the dedup keys
agree. -/
theorem isDupT_eq_true_iff (y x : KnowledgeItem) :
    isDupT y x = true ↔ dkey y = dkey x := by
  simp [isDupT, dkey, Prod.ext_iff, Bool.and_eq_true]

/-- Merging preserves the kept item's dedup key. -/
theorem dkey_mergeItem (y x : KnowledgeItem) : dkey (mergeItem y x) = dkey y :=
  rfl

/-- Inserting an item with a fresh key appends it. -/
theorem insertItemT_fresh :
    ∀ (acc : List KnowledgeItem) (x : KnowledgeItem),
      dkey x ∉ acc.map dkey → insertItemT acc x = acc ++ [x] := by
  intro acc
  induction acc with
  | nil => intro x _; rfl
  | cons y ys ih =>
    intro x hx
    rw [List.map_cons] at hx
    have hxy : dkey x ≠ dkey y :=
      fun h => hx (h ▸ List.mem_cons_self _ _)
    have hdup : ¬ isDupT y x = true :=
      fun h => hxy ((isDupT_eq_true_iff y x).mp h).symm
    rw [insertItemT, if_neg hdup,
      ih x (fun h => hx (List.mem_cons_of_mem _ h))]
    rfl

/-- Inserting an item whose key is already kept leaves the key multiset
unchanged. -/
theorem map_dkey_insertItemT_mem :
    ∀ (acc : List KnowledgeItem) (x : KnowledgeItem),
      dkey x ∈ acc.map dkey →
      (insertItemT acc x).map dkey = acc.map dkey := by
  intro acc
  induction acc with
  | nil => intro x hx; simp at hx
  | cons y ys ih =>
    intro x hx
    by_cases hdup : isDupT y x = true
    · rw [insertItemT, if_pos hdup, List.map_cons, List.map_cons,
        dkey_mergeItem]
    · have hxy : dkey x ≠ dkey y :=
        fun h => hdup ((isDupT_eq_true_iff y x).mpr h.symm)
      have hx' : dkey x ∈ ys.map dkey := by
        rw [List.map_cons] at hx
        rcases List.mem_cons.mp hx with h | h
        · exact absurd h hxy
        · exact h
      rw [insertItemT, if_neg hdup, List.map_cons, List.map_cons, ih x hx']

/-- Insertion keeps the kept keys duplicate-free. -/
theorem nodup_map_dkey_insertItemT (acc : List KnowledgeItem)
    (x : KnowledgeItem) (h : (acc.map dkey).Nodup) :
    ((insertItemT acc x).map dkey).Nodup := by
  by_cases hx : dkey x ∈ acc.map dkey
  · rw [map_dkey_insertItemT_mem acc x hx]; exact h
  · rw [insertItemT_fresh acc x hx, List.map_append]
    have hperm : List.Perm (acc.map dkey ++ [dkey x])
        (dkey x :: acc.map dkey) := List.perm_append_singleton _ _
    exact hperm.symm.nodup (List.nodup_cons.mpr ⟨hx, h⟩)

/-- One dedup pass leaves the kept keys duplicate-free. -/
theorem foldl_insertItemT_nodup :
    ∀ (xs acc : List KnowledgeItem), (acc.map dkey).Nodup →
      ((xs.foldl insertItemT acc).map dkey).Nodup := by
  intro xs
  induction xs with
  | nil => intro acc h; exact h
  | cons x xs ih =>
    intro acc h
    rw [List.foldl_cons]
    exact ih _ (nodup_map_dkey_insertItemT acc x h)

/-- On a key-duplicate-free input the dedup fold is the identity. -/
theorem foldl_insertItemT_eq :
    ∀ (xs acc : List KnowledgeItem), (((acc ++ xs).map dkey)).Nodup →
      xs.foldl insertItemT acc = acc ++ xs := by
  intro xs
  induction xs with
  | nil => intro acc _; simp
  | cons x xs ih =>
    intro acc h
    have hx : dkey x ∉ acc.map dkey := by
      intro hmem
      rw [List.map_append] at h
      have hdisj := (List.nodup_append.mp h).2.2
      exact hdisj hmem (by simp)
    rw [List.foldl_cons, insertItemT_fresh acc x hx]
    have hassoc : (acc ++ [x]) ++ xs = acc ++ x :: xs := by simp
    rw [ih (acc ++ [x]) (by rw [hassoc]; exact h), hassoc]

/-- C6 (amended): the Deduplicator is idempotent when duplicate detection
uses only the merge-invariant fields (category and normalized title); a
second pass over its own output performs no further merges. -/
theorem dedupByTitle_idempotent (xs : List KnowledgeItem) :
    dedupByTitle (dedupByTitle xs) = dedupByTitle xs := by
  have hnodup : ((dedupByTitle xs).map dkey).Nodup :=
    foldl_insertItemT_nodup xs [] (by simp)
  have h := foldl_insertItemT_eq (dedupByTitle xs) [] (by simpa using hnodup)
  simpa [dedupByTitle] using h

/-- C6 counterexample: with content-based duplicate detection, a merge
that lengthens a kept item's content can create a new duplicate, so a
second Deduplicator pass merges further — dedup applied twice differs
from dedup applied once. -/
theorem dedup_not_idempotent :
    ¬ (dedup (dedup [⟨"x", "c", "a", "1", []⟩, ⟨"y", "c", "b", "12", []⟩,
          ⟨"z", "c", "a", "12", []⟩]) =
        dedup [⟨"x", "c", "a", "1", []⟩, ⟨"y", "c", "b", "12", []⟩,
          ⟨"z", "c", "a", "12", []⟩]) := by decide

/-- Counting items of a category equals counting that category in the
projected category list. -/
theorem countFor_eq_count :
    ∀ (items : List KnowledgeItem) (c : String),
      (items.filter (fun i => i.category == c)).length =
        (items.map (fun i => i.category)).count c := by
  intro items c
  induction items with
  | nil => rfl
  | cons i is ih =>
    simp only [List.map_cons, List.filter_cons, List.count_cons]
    by_cases h : (i.category == c) = true
    · rw [if_pos h, List.length_cons, ih, if_pos h]
    · rw [if_neg h, ih, if_neg h, Nat.add_zero]

/-- C10: the category filter strip lists each distinct category of
`data.items` exactly once, sorted; the per-category counts sum to the
total number of items. -/
theorem category_strip (data : KnowledgeBase) :
    (categoriesOf data).Nodup ∧
    List.Sorted (· ≤ ·) (categoriesOf data) ∧
    (∀ c, c ∈ categoriesOf data ↔
      c ∈ data.items.map (fun i => i.category)) ∧
    ((categoriesOf data).map (countFor data)).sum = data.items.length := by
  have hperm : List.Perm (categoriesOf data)
      (data.items.map (fun i => i.category)).dedup :=
    List.perm_insertionSort _ _
  refine ⟨?_, ?_, ?_, ?_⟩
  · exact hperm.nodup_iff.mpr (List.nodup_dedup _)
  · exact List.sorted_insertionSort _ _
  · intro c
    rw [hperm.mem_iff, List.mem_dedup]
  · have hfun : countFor data =
        fun c => (data.items.map (fun i => i.category)).count c :=
      funext (fun c => countFor_eq_count data.items c)
    rw [hfun, (hperm.map _).sum_eq,
      List.sum_map_count_dedup_eq_length, List.length_map]
